import Mathlib

/-!
# gitsearch: aggregation and retry engine

A shallow embedding of `gitsearch.go` (function `main` and its helpers
`retryAfter`, `stringContains`, `repoValue`) together with the properties of
the fetch / filter / aggregate / order pipeline.

Conventions of the embedding

* Go strings are Lean `String`s. Go compares and searches strings bytewise;
  on well-formed UTF-8 this agrees with comparing and searching the sequence
  of code points, which is what the definitions below do.
* Go `int` / `int64` values are `Int`; the one place where overflow can occur
  (`time.Duration(after) * time.Second`) wraps explicitly modulo `2^64`.
* A Go `map[string]*matchRepo` is an association list with pairwise distinct
  keys; the order of the list plays the role of Go's unspecified iteration
  order, and no result below depends on it.
* The remote endpoint is a script: the list of answers it gives to the
  successive calls of `client.Search.Code`.
-/

namespace GitSearch

/-! ## Standard-library operations used by the program -/

/-- Substring search on character lists: `sub` is a prefix of some suffix of `s`. -/
def containsChars : List Char → List Char → Bool
  | [], sub => sub.isPrefixOf []
  | c :: s, sub => sub.isPrefixOf (c :: s) || containsChars s sub

/-- Go `strings.Contains(s, substr)`. -/
def strings.Contains (s substr : String) : Bool :=
  containsChars s.data substr.data

/-- Go `strings.Join(elems, sep)` on character lists. -/
def joinChars (sep : List Char) : List String → List Char
  | [] => []
  | [a] => a.data
  | a :: b :: rest => a.data ++ sep ++ joinChars sep (b :: rest)

/-- Go `strings.Join(elems, sep)`. -/
def strings.Join (elems : List String) (sep : String) : String :=
  ⟨joinChars sep.data elems⟩

/-- Lower-casing of one ASCII letter (`c += 'a' - 'A'` for `'A' ≤ c ≤ 'Z'`). -/
def asciiToLower (c : Char) : Char :=
  if 65 ≤ c.toNat ∧ c.toNat ≤ 90 then Char.ofNat (c.toNat + 32) else c

/-- Go `strings.ToLower(s)`. A string of ASCII characters only is lower-cased
letter by letter; any other string is mapped rune by rune through
`unicode.ToLower`, whose case tables are a parameter of the embedding. -/
def strings.ToLower (unicodeToLower : Char → Char) (s : String) : String :=
  if s.data.all (fun c => decide (c.toNat < 128)) then
    ⟨s.data.map asciiToLower⟩
  else
    ⟨s.data.map unicodeToLower⟩

/-- Value of a run of decimal digits, `none` as soon as a byte is not a digit. -/
def decimal? : List Char → Nat → Option Nat
  | [], n => some n
  | c :: cs, n =>
    if 48 ≤ c.toNat ∧ c.toNat ≤ 57 then decimal? cs (n * 10 + (c.toNat - 48)) else none

/-- Splits an optional leading sign off a numeral: (is negative, the rest). -/
def splitSign : List Char → Bool × List Char
  | '-' :: t => (true, t)
  | '+' :: t => (false, t)
  | cs => (false, cs)

/-- Go `strconv.Atoi(s)` on a 64-bit platform, as the pair (value, error?).
A syntax error yields value `0`; a range error yields the nearest `int64`. -/
def strconv.Atoi (s : String) : Int × Bool :=
  let sb := splitSign s.data
  if sb.2 = [] then (0, true)
  else
    match decimal? sb.2 0 with
    | none => (0, true)
    | some un =>
      if sb.1 then
        if un > 2 ^ 63 then (-(2 ^ 63 : Int), true) else (-(un : Int), false)
      else
        if un ≥ 2 ^ 63 then ((2 ^ 63 : Int) - 1, true) else ((un : Int), false)

/-- The numeral is rejected by `strconv.Atoi` with `ErrSyntax`: after the
optional sign it is empty, or one of its bytes is not a decimal digit. -/
def strconv.syntaxError (s : String) : Bool :=
  let sb := splitSign s.data
  decide (sb.2 = []) || (decimal? sb.2 0).isNone

/-- Two's-complement wrap of an integer into the `int64` range. -/
def wrapInt64 (x : Int) : Int :=
  (x + 2 ^ 63) % 2 ^ 64 - 2 ^ 63

/-- Go `time.Second`, in nanoseconds. -/
def time.Second : Int := 1000000000

/-- The UTF-8 encoding of a character. -/
def utf8Bytes (c : Char) : List Nat :=
  let n := c.toNat
  if n < 128 then [n]
  else if n < 2048 then [192 + n / 64, 128 + n % 64]
  else if n < 65536 then [224 + n / 4096, 128 + (n / 64) % 64, 128 + n % 64]
  else [240 + n / 262144, 128 + (n / 4096) % 64, 128 + (n / 64) % 64, 128 + n % 64]

/-- Go `upperhex[n]`. -/
def upperhex (n : Nat) : Char :=
  "0123456789ABCDEF".data.getD n '0'

/-- Go `url.shouldEscape(c, encodeQueryComponent)`: only the unreserved
characters (letters, digits, `-`, `_`, `.`, `~`) are left alone. -/
def shouldEscape (b : Nat) : Bool :=
  !((97 ≤ b && b ≤ 122) || (65 ≤ b && b ≤ 90) || (48 ≤ b && b ≤ 57)
    || b == 45 || b == 95 || b == 46 || b == 126)

/-- Escaping of one byte in query-component mode. -/
def escapeByte (b : Nat) : List Char :=
  if b = 32 then ['+']
  else if shouldEscape b then ['%', upperhex (b / 16), upperhex (b % 16)]
  else [Char.ofNat b]

/-- Go `url.QueryEscape(s)`. -/
def url.QueryEscape (s : String) : String :=
  ⟨((s.data.map utf8Bytes).flatten.map escapeByte).flatten⟩

/-! ## Data model -/

/-- One file of a repository with its accepted fragments. -/
structure matchFile where
  Path : String
  Href : String
  Matches : List String
  deriving DecidableEq, Repr

/-- One repository with its files, in discovery order. -/
structure matchRepo where
  Name : String
  Href : String
  Files : List matchFile
  deriving DecidableEq, Repr

/-- A text match of the API (`github.TextMatch`); the fragment is a nullable string. -/
structure TextMatch where
  Fragment : Option String
  deriving DecidableEq, Repr

/-- The repository of an item (`github.Repository`), reduced to the fields read. -/
structure Repository where
  FullName : Option String
  HTMLURL : Option String
  deriving DecidableEq, Repr

/-- One item of a result page (`github.CodeResult`), reduced to the fields read. -/
structure CodeResult where
  Path : Option String
  HTMLURL : Option String
  Repository : Option Repository
  TextMatches : List (Option TextMatch)
  deriving DecidableEq, Repr

/-- Nil-safe getter `(*TextMatch).GetFragment`. -/
def TextMatch.GetFragment (m : Option TextMatch) : String :=
  match m with
  | some t => t.Fragment.getD ""
  | none => ""

/-- Nil-safe getter `(*Repository).GetFullName`. -/
def Repository.GetFullName (r : Option Repository) : String :=
  match r with
  | some p => p.FullName.getD ""
  | none => ""

/-- Nil-safe getter `(*Repository).GetHTMLURL`. -/
def Repository.GetHTMLURL (r : Option Repository) : String :=
  match r with
  | some p => p.HTMLURL.getD ""
  | none => ""

/-- Getter `(*CodeResult).GetPath`. -/
def CodeResult.GetPath (r : CodeResult) : String := r.Path.getD ""

/-- Getter `(*CodeResult).GetHTMLURL`. -/
def CodeResult.GetHTMLURL (r : CodeResult) : String := r.HTMLURL.getD ""

/-- Getter `(*CodeResult).GetRepository`. -/
def CodeResult.GetRepository (r : CodeResult) : Option GitSearch.Repository := r.Repository

/-- The command line: the flags read by the core and the positional words. -/
structure Flags where
  filters : String
  all : Bool
  highlight : Bool
  ignoreCase : Bool
  args : List String
  deriving DecidableEq, Repr

/-- The textual query `q` (lines 207-210): the words joined by single spaces,
wrapped in double quotes when the joined text contains a space. -/
def q (fl : Flags) : String :=
  let q0 := strings.Join fl.args " "
  if strings.Contains q0 " " then "\"" ++ q0 ++ "\"" else q0

/-- The full query sent to the endpoint (lines 214-218): `q` plus the filters. -/
def query (fl : Flags) : String :=
  if fl.filters ≠ "" then q fl ++ " " ++ fl.filters else q fl

/-- The highlight anchor `textMatch` (lines 221-224). -/
def textMatch (fl : Flags) : String :=
  if fl.highlight then "#:~:text=" ++ url.QueryEscape (q fl) else ""

/-- The closure `stringContains` (lines 292-299); `ignoreCase` is the flag it captures. -/
def stringContains (tl : Char → Char) (ignoreCase : Bool) (s q : String) : Bool :=
  if ignoreCase then strings.Contains (strings.ToLower tl s) (strings.ToLower tl q)
  else strings.Contains s q

/-- The test of line 341, `*all || stringContains(frag, q)`, as a function of
the fragment, the term and the two flags. -/
def accept (tl : Char → Char) (all ignoreCase : Bool) (frag term : String) : Bool :=
  all || stringContains tl ignoreCase frag term

/-! ## The aggregation map -/

/-- An entry of the map `repos`, also the element type of the sorted view
(`sortedmap.KeyValuePair[string, *matchRepo]`). -/
structure KeyValuePair where
  Key : String
  Value : matchRepo
  deriving DecidableEq, Repr

/-- The template helper `repoValue` (lines 164-166). -/
def repoValue (kv : KeyValuePair) : matchRepo := kv.Value

/-- The entries of a Go `map[string]*matchRepo`. -/
abbrev Repos := List KeyValuePair

/-- Map lookup `repos[k]`; `none` is the nil pointer of a missing key. -/
def mapGet : Repos → String → Option matchRepo
  | [], _ => none
  | kv :: m, k => if kv.Key = k then some kv.Value else mapGet m k

/-- Map store `repos[k] = v`, also the write through the pointer held under `k`. -/
def mapSet : Repos → String → matchRepo → Repos
  | [], k, v => [⟨k, v⟩]
  | kv :: m, k, v => if kv.Key = k then ⟨k, v⟩ :: m else kv :: mapSet m k v

/-- The keys of the map. -/
def mapKeys (m : Repos) : List String := m.map KeyValuePair.Key

/-- The inner loop of lines 339-344: the fragments of one item that pass the
filter, appended one by one in API order. -/
def keptFragments (tl : Char → Char) (fl : Flags) (ms : List (Option TextMatch)) : List String :=
  ms.foldl
    (fun acc m =>
      let frag := TextMatch.GetFragment m
      if accept tl fl.all fl.ignoreCase frag (q fl) then acc ++ [frag] else acc)
    []

/-- The file record built for one item (line 337 and lines 339-344). -/
def fileOf (tl : Char → Char) (fl : Flags) (r : CodeResult) : matchFile :=
  { Path := r.GetPath
    Href := r.GetHTMLURL ++ textMatch fl
    Matches := keptFragments tl fl r.TextMatches }

/-- The repository record created for an item whose repository is not in the map yet
(line 333). -/
def newRepo (r : CodeResult) : matchRepo :=
  { Name := Repository.GetFullName r.GetRepository
    Href := Repository.GetHTMLURL r.Repository
    Files := [] }

/-- The body of the loop over `res.CodeResults` (lines 328-349) for one item. -/
def addResult (tl : Char → Char) (fl : Flags) (repos : Repos) (r : CodeResult) : Repos :=
  let rname := Repository.GetFullName r.GetRepository
  let found : matchRepo × Repos :=
    match mapGet repos rname with
    | some repo => (repo, repos)
    | none => (newRepo r, mapSet repos rname (newRepo r))
  let file := fileOf tl fl r
  if file.Matches.length > 0 then
    mapSet found.2 rname { found.1 with Files := found.1.Files ++ [file] }
  else
    found.2

/-- The loop over `res.CodeResults` (lines 328-349) for one page. -/
def addPage (tl : Char → Char) (fl : Flags) (repos : Repos) (res : List CodeResult) : Repos :=
  res.foldl (addResult tl fl) repos

/-- The map after the pages of a run have been folded in, page after page. -/
def aggregate (tl : Char → Char) (fl : Flags) (pages : List (List CodeResult)) : Repos :=
  pages.foldl (addPage tl fl) []

/-- The pruning pass of lines 358-362: entries with no file are deleted. -/
def prune (repos : Repos) : Repos :=
  repos.filter (fun kv => !(kv.Value.Files.length == 0))

/-- The pruned aggregation map of a run that fetched `pages`. -/
def finalRepos (tl : Char → Char) (fl : Flags) (pages : List (List CodeResult)) : Repos :=
  prune (aggregate tl fl pages)

/-! ## The sorted view -/

/-- Insertion of one entry into a list sorted by key, placed before the first
entry with a greater key. -/
def insertByKey (kv : KeyValuePair) : List KeyValuePair → List KeyValuePair
  | [] => [kv]
  | h :: t => if kv.Key < h.Key then kv :: h :: t else h :: insertByKey kv t

/-- Modelled from the spec: `sortedmap.AsSortedMap` of the package
`github.com/gobs/sortedmap`, which is not part of the sources. Following
section 4.4 it produces the (identifier, record) pairs of the map sorted by
identifier in ascending lexicographic order; here by inserting the entries one
by one, in whatever order the map is iterated. -/
def AsSortedMap (m : Repos) : List KeyValuePair :=
  m.foldr insertByKey []

/-- The anonymous struct `values` handed to the template (lines 369-375). -/
structure Values where
  Query : String
  Repos : List KeyValuePair
  deriving DecidableEq, Repr

/-- What `main` does after the fetch loop (lines 358-375): prune, then build `values`. -/
def finish (fl : Flags) (repos : Repos) : Values :=
  { Query := query fl, Repos := AsSortedMap (prune repos) }

/-! ## The driver loop -/

/-- The fields of `github.Response` read by the program. `RetryAfter` is the
`Retry-After` header, `none` when the header is absent. -/
structure Response where
  StatusCode : Int
  RetryAfter : Option String
  NextPage : Int
  deriving DecidableEq, Repr

/-- Go `resp.Response.Header.Get("Retry-After")`: the empty string when absent. -/
def Response.HeaderGet (r : Response) : String := r.RetryAfter.getD ""

/-- The function `retryAfter` (lines 141-150), in nanoseconds. -/
def retryAfter (resp : Option Response) : Int :=
  match resp with
  | some r =>
    if r.StatusCode = 403 then
      if r.HeaderGet ≠ "" then wrapInt64 ((strconv.Atoi r.HeaderGet).1 * time.Second)
      else 0
    else 0
  | none => 0

/-- The answer of one call `client.Search.Code(ctx, query, opts)`: either a
page with its response, or an error with the response it came with, if any. -/
inductive Fetch where
  | ok (res : List CodeResult) (resp : Response)
  | err (resp : Option Response)
  deriving DecidableEq, Repr

/-- The `github.SearchOptions` of the request (lines 287-288), with the page cursor. -/
structure SearchOptions where
  TextMatch : Bool
  SortBy : String
  Order : String
  Page : Int
  PerPage : Int
  deriving DecidableEq, Repr

/-- The mutable state of the fetch loop: the request options and the map. -/
structure Loop where
  opts : SearchOptions
  repos : Repos
  deriving DecidableEq, Repr

/-- The state before the first iteration (lines 287-290). -/
def Loop.init : Loop :=
  { opts := { TextMatch := true, SortBy := "indexed", Order := "desc", Page := 0, PerPage := 100 }
    repos := [] }

/-- The request issued in a state: the query string and the options. -/
def request (fl : Flags) (st : Loop) : String × SearchOptions :=
  (query fl, st.opts)

/-- What one answer of the endpoint makes the loop do. -/
inductive Step where
  /-- Sleep `after`, then `goto retry_search` in state `st`. -/
  | retry (after : Int) (st : Loop)
  /-- The call `log.Fatal` of line 317. -/
  | fatal
  /-- Next iteration of the loop in state `st`. -/
  | next (st : Loop)
  /-- The `break` of line 354, leaving the loop in state `st`. -/
  | done (st : Loop)
  deriving DecidableEq, Repr

/-- One pass through lines 306-355 on the answer `a` of the endpoint. -/
def step (tl : Char → Char) (fl : Flags) (st : Loop) (a : Fetch) : Step :=
  match a with
  | .err resp =>
    if retryAfter resp > 0 then .retry (retryAfter resp) st else .fatal
  | .ok res resp =>
    let repos := addPage tl fl st.repos res
    if resp.NextPage > 0 then
      .next { opts := { st.opts with Page := resp.NextPage }, repos := repos }
    else
      .done { st with repos := repos }

/-- How a run of `main` against a scripted endpoint ends. -/
inductive Outcome where
  /-- The process was terminated by `log.Fatal`; nothing is rendered. -/
  | fatal
  /-- The loop was left and `values` was handed to the template. -/
  | rendered (v : Values)
  /-- The script is exhausted while the loop still waits for an answer. -/
  | waiting (st : Loop)
  deriving DecidableEq, Repr

/-- The fetch loop (lines 301-356) followed by lines 358-375, run against the
answers `script` of the endpoint. -/
def run (tl : Char → Char) (fl : Flags) : Loop → List Fetch → Outcome
  | st, [] => .waiting st
  | st, a :: rest =>
    match step tl fl st a with
    | .retry _ st1 => run tl fl st1 rest
    | .fatal => .fatal
    | .next st1 => run tl fl st1 rest
    | .done st1 => .rendered (finish fl st1.repos)

/-- The answer is a rate-limit signal: an error for which `retryAfter` is positive. -/
def Fetch.rateLimited : Fetch → Bool
  | .err resp => decide (0 < retryAfter resp)
  | .ok _ _ => false

/-- The answer is an error that is not a rate-limit signal. -/
def Fetch.fatalError : Fetch → Bool
  | .err resp => !decide (0 < retryAfter resp)
  | .ok _ _ => false

/-- The answer is a page without a next-page indicator. -/
def Fetch.lastPage : Fetch → Bool
  | .err _ => false
  | .ok _ resp => !decide (0 < resp.NextPage)

/-- The pages delivered by the successful answers of a script, in order. -/
def pagesOf : List Fetch → List (List CodeResult)
  | [] => []
  | .ok res _ :: rest => res :: pagesOf rest
  | .err _ :: rest => pagesOf rest

/-- The requests issued during a run, in order. -/
def requests (tl : Char → Char) (fl : Flags) : Loop → List Fetch → List (String × SearchOptions)
  | st, [] => [request fl st]
  | st, a :: rest =>
    request fl st ::
      match step tl fl st a with
      | .retry _ st1 => requests tl fl st1 rest
      | .next st1 => requests tl fl st1 rest
      | .fatal => []
      | .done _ => []

/-! ## Reference definitions of the aggregation -/

/-- The repository identifier of an item (line 329). -/
def repoName (r : CodeResult) : String :=
  Repository.GetFullName r.GetRepository

/-- The accepted fragments of an item: its raw fragments, in API order, that
pass the filter. -/
def acceptedFragments (tl : Char → Char) (fl : Flags) (r : CodeResult) : List String :=
  (r.TextMatches.map TextMatch.GetFragment).filter
    (fun frag => accept tl fl.all fl.ignoreCase frag (q fl))

/-- The reference file list of repository `k`: the items of `k` with at least
one accepted fragment, in discovery order, each as a record of its path, its
URL with the anchor, and exactly its accepted fragments. -/
def referenceFiles (tl : Char → Char) (fl : Flags) (k : String) (items : List CodeResult) :
    List matchFile :=
  (items.filter (fun r => decide (repoName r = k) && !(acceptedFragments tl fl r).isEmpty)).map
    (fun r =>
      { Path := r.GetPath
        Href := r.GetHTMLURL ++ textMatch fl
        Matches := acceptedFragments tl fl r })

/-- The record of a file with `a` appended to its URL. -/
def anchorFile (a : String) (f : matchFile) : matchFile :=
  { f with Href := f.Href ++ a }

/-- The record of a repository with `a` appended to the URL of each file. -/
def anchorRepo (a : String) (v : matchRepo) : matchRepo :=
  { v with Files := v.Files.map (anchorFile a) }

/-- The map with `a` appended to the URL of every file, all else unchanged. -/
def withAnchor (a : String) (m : Repos) : Repos :=
  m.map (fun kv => { Key := kv.Key, Value := anchorRepo a kv.Value })

/-! ## Sample data -/

/-- A command line with the given words and no flag set. -/
def plainFlags (args : List String) : Flags :=
  { filters := "", all := false, highlight := false, ignoreCase := false, args := args }

/-- An item of repository `repo` for file `file` with the given fragments. -/
def sampleItem (repo file : String) (frags : List String) : CodeResult :=
  { Path := some file
    HTMLURL := some ("https://github.com/" ++ repo ++ "/blob/main/" ++ file)
    Repository := some ⟨some repo, some ("https://github.com/" ++ repo)⟩
    TextMatches := frags.map (fun s => some ⟨some s⟩) }

/-- A successful response with the given next-page indicator. -/
def okResponse (nextPage : Int) : Response :=
  { StatusCode := 200, RetryAfter := none, NextPage := nextPage }

/-- An error response with status 403 and the given `Retry-After` header. -/
def forbidden (hint : Option String) : Response :=
  { StatusCode := 403, RetryAfter := hint, NextPage := 0 }

/-! # Properties -/

/-! ## Strings -/

theorem containsChars_iff (s sub : List Char) :
    containsChars s sub = true ↔ sub <:+: s := by
  induction s with
  | nil => simp [containsChars, List.infix_nil, List.isPrefixOf_iff_prefix]
  | cons c s ih =>
    simp only [containsChars, Bool.or_eq_true, ih, List.isPrefixOf_iff_prefix]
    exact (List.infix_cons_iff).symm

theorem strings_Contains_iff (s sub : String) :
    strings.Contains s sub = true ↔ sub.data <:+: s.data :=
  containsChars_iff _ _

/-! ## The filter -/

/-- C7. The filter accepts a fragment iff `acceptAll` is set or the fragment
contains the term as a substring, both lower-cased first when
`caseInsensitive` is set; and the four sample decisions of the specification. -/
theorem accept_iff_all_or_contains (tl : Char → Char) :
    (∀ (all ignoreCase : Bool) (frag term : String),
      accept tl all ignoreCase frag term = true ↔
        (all = true ∨
          (if ignoreCase then strings.ToLower tl term else term).data <:+:
            (if ignoreCase then strings.ToLower tl frag else frag).data)) ∧
    accept tl false false "Hello World" "World" = true ∧
    accept tl false false "Hello World" "world" = false ∧
    accept tl false true "Hello World" "world" = true ∧
    accept tl true false "anything" "zzz" = true := by
  refine ⟨?_, rfl, rfl, rfl, rfl⟩
  intro all ignoreCase frag term
  cases all <;> cases ignoreCase <;>
    simp [accept, stringContains, strings_Contains_iff]

/-- With no space in the joined words the term used by the filter is the joined text itself. -/
theorem q_of_single_word (fl : Flags)
    (h : strings.Contains (strings.Join fl.args " ") " " = false) :
    q fl = strings.Join fl.args " " := by
  simp [q, h]

/-- C2. For the words `foo bar` the term handed to the filter is the quoted
text `"foo bar"`: the fragment `x foo bar y` contains the unquoted term, yet
the filter rejects it and the aggregation keeps nothing of its item. -/
theorem multiword_term_is_matched_with_quotes (tl : Char → Char) :
    strings.Join (plainFlags ["foo", "bar"]).args " " = "foo bar" ∧
    q (plainFlags ["foo", "bar"]) = "\"foo bar\"" ∧
    strings.Contains "x foo bar y" (strings.Join (plainFlags ["foo", "bar"]).args " ") = true ∧
    accept tl false false "x foo bar y" (q (plainFlags ["foo", "bar"])) = false ∧
    keptFragments tl (plainFlags ["foo", "bar"]) [some ⟨some "x foo bar y"⟩] = [] ∧
    finalRepos tl (plainFlags ["foo", "bar"]) [[sampleItem "a/b" "x.go" ["x foo bar y"]]] = [] :=
  ⟨rfl, rfl, rfl, rfl, rfl, rfl⟩

/-! ## The retry hint -/

theorem Atoi_error_value (v : String) (h : (strconv.Atoi v).2 = true) :
    (strconv.Atoi v).1 = 0 ∨ (strconv.Atoi v).1 = 2 ^ 63 - 1 ∨ (strconv.Atoi v).1 = -(2 ^ 63) := by
  unfold strconv.Atoi at h ⊢
  simp only at h ⊢
  by_cases he : (splitSign v.data).2 = []
  · simp [he]
  · rw [if_neg he] at h ⊢
    cases hd : decimal? (splitSign v.data).2 0 with
    | none => simp
    | some un =>
      simp only [hd] at h ⊢
      by_cases hs : (splitSign v.data).1 = true
      · rw [if_pos hs] at h ⊢
        by_cases hu : un > 2 ^ 63
        · rw [if_pos hu]; simp
        · rw [if_neg hu] at h; simp at h
      · rw [if_neg hs] at h ⊢
        by_cases hu : un ≥ 2 ^ 63
        · rw [if_pos hu]; simp
        · rw [if_neg hu] at h; simp at h

theorem retryAfter_of_bad_hint (resp : Response) (h403 : resp.StatusCode = 403)
    (hbad : resp.RetryAfter = none ∨
      ∃ v, resp.RetryAfter = some v ∧ (strconv.Atoi v).2 = true) :
    retryAfter (some resp) ≤ 0 := by
  unfold retryAfter
  simp only [h403, if_true]
  split
  · rcases hbad with hn | ⟨v, hv, he⟩
    · rename_i hne; simp [Response.HeaderGet, hn] at hne
    · have hg : resp.HeaderGet = v := by simp [Response.HeaderGet, hv]
      rw [hg]
      rcases Atoi_error_value v he with h0 | h1 | h2
      · rw [h0]; decide
      · rw [h1]; decide
      · rw [h2]; decide
  · exact le_refl 0

/-- A 403 error whose header is a numeral of `n` seconds, small enough for the
product with `time.Second` to fit `int64`, asks for a wait of `n` seconds. -/
theorem retryAfter_of_good_hint (resp : Response) (v : String) (n : Int)
    (h403 : resp.StatusCode = 403) (hv : resp.RetryAfter = some v) (hne : v ≠ "")
    (hn : strconv.Atoi v = (n, false)) (h0 : 0 ≤ n) (hfit : n * 1000000000 < 2 ^ 63) :
    retryAfter (some resp) = n * 1000000000 := by
  have hg : resp.HeaderGet = v := by simp [Response.HeaderGet, hv]
  unfold retryAfter
  simp only [h403, if_true, hg, hne, ne_eq, not_false_eq_true, hn, time.Second, wrapInt64]
  omega

/-- A numeral of seconds too large for `int64` nanoseconds wraps around: here to a negative wait. -/
theorem retryAfter_wraps : retryAfter (some (forbidden (some "9223372037"))) < 0 := by
  decide

/-! ## The driver loop -/

theorem step_err_fatal (tl : Char → Char) (fl : Flags) (st : Loop) (resp : Option Response)
    (h : retryAfter resp ≤ 0) : step tl fl st (.err resp) = .fatal := by
  simp [step, not_lt.mpr h]

theorem step_err_retry (tl : Char → Char) (fl : Flags) (st : Loop) (resp : Option Response)
    (h : 0 < retryAfter resp) : step tl fl st (.err resp) = .retry (retryAfter resp) st := by
  simp [step, h]

theorem requests_head (tl : Char → Char) (fl : Flags) (st : Loop) (script : List Fetch) :
    ∃ more, requests tl fl st script = request fl st :: more := by
  cases script with
  | nil => exact ⟨[], rfl⟩
  | cons a rest => exact ⟨_, rfl⟩

/-- C3, as stated, fails: a 403 error without a `Retry-After` header, and one
whose header is not a number, both end the run with a fatal error instead of
being retried. -/
theorem forbidden_without_hint_is_fatal :
    retryAfter (some (forbidden none)) = 0 ∧
    retryAfter (some (forbidden (some "soon"))) = 0 ∧
    step (fun c => c) (plainFlags ["foo"]) Loop.init (.err (some (forbidden none))) = .fatal ∧
    step (fun c => c) (plainFlags ["foo"]) Loop.init (.err (some (forbidden (some "soon")))) = .fatal ∧
    run (fun c => c) (plainFlags ["foo"]) Loop.init
      [.err (some (forbidden none)), .ok [] (okResponse 0)] = .fatal := by
  decide

theorem Atoi_of_syntaxError (v : String) (h : strconv.syntaxError v = true) :
    strconv.Atoi v = (0, true) := by
  unfold strconv.syntaxError at h
  unfold strconv.Atoi
  simp only [Bool.or_eq_true, decide_eq_true_eq, Option.isNone_iff_eq_none] at h
  simp only
  by_cases he : (splitSign v.data).2 = []
  · rw [if_pos he]
  · rw [if_neg he]
    rcases h with h | h
    · exact absurd h he
    · rw [h]

theorem retryAfter_of_syntaxError (resp : Response) (v : String)
    (hv : resp.RetryAfter = some v) (h : strconv.syntaxError v = true) :
    retryAfter (some resp) = 0 := by
  have hg : resp.HeaderGet = v := by simp [Response.HeaderGet, hv]
  unfold retryAfter
  simp only [hg, Atoi_of_syntaxError v h]
  split
  · split
    · decide
    · rfl
  · rfl

/-- A positive wait is computed only for a response with status 403 that
carries a `Retry-After` header. -/
theorem retryAfter_pos_only_403 (resp : Option Response) (h : 0 < retryAfter resp) :
    ∃ r, resp = some r ∧ r.StatusCode = 403 ∧ r.HeaderGet ≠ "" := by
  cases resp with
  | none => simp [retryAfter] at h
  | some r =>
    refine ⟨r, rfl, ?_⟩
    unfold retryAfter at h
    simp only at h
    by_cases hs : r.StatusCode = 403
    · by_cases hh : r.HeaderGet ≠ ""
      · exact ⟨hs, hh⟩
      · rw [if_pos hs, if_neg hh] at h
        exact absurd h (lt_irrefl 0)
    · rw [if_neg hs] at h
      exact absurd h (lt_irrefl 0)

/-- An error answer is retried only if it carries a response with status 403
and a positive computed wait; the retry then keeps the state. -/
theorem step_retry_only_if (tl : Char → Char) (fl : Flags) (st : Loop)
    (resp : Option Response) (after : Int) (st1 : Loop)
    (h : step tl fl st (.err resp) = .retry after st1) :
    ∃ r, resp = some r ∧ r.StatusCode = 403 ∧ r.HeaderGet ≠ "" ∧
      0 < after ∧ after = retryAfter resp ∧ st1 = st := by
  by_cases hp : 0 < retryAfter resp
  · rw [step_err_retry tl fl st resp hp] at h
    simp only [Step.retry.injEq] at h
    obtain ⟨r, hr, hs, hh⟩ := retryAfter_pos_only_403 resp hp
    exact ⟨r, hr, hs, hh, h.1 ▸ hp, h.1.symm, h.2.symm⟩
  · rw [step_err_fatal tl fl st resp (not_lt.mp hp)] at h
    exact absurd h (by simp)

/-- A retry leaves the state alone: the request is issued again and the run goes on from it. -/
theorem retry_frame (tl : Char → Char) (fl : Flags) (st : Loop) (resp : Option Response)
    (hpos : 0 < retryAfter resp) (rest : List Fetch) :
    (∃ more, requests tl fl st (.err resp :: rest)
        = request fl st :: request fl st :: more) ∧
    run tl fl st (.err resp :: rest) = run tl fl st rest := by
  have hstep := step_err_retry tl fl st resp hpos
  refine ⟨?_, ?_⟩
  · obtain ⟨more, hm⟩ := requests_head tl fl st rest
    exact ⟨more, by simp [requests, hstep, hm]⟩
  · simp [run, hstep]

/-- C3, amended. On an error response with status 403 whose `Retry-After`
header is absent or is not accepted by `strconv.Atoi`, the computed wait is
not positive; it is zero when the header is absent or syntactically invalid,
and zero or minus one second for a numeral out of the `int64` range. The
response is a fatal error and the run ends there, whatever the endpoint would
have answered next. And only an error that comes with status 403, a
`Retry-After` header and a positive computed wait is retried (then with the
state unchanged); in particular no error with another status is. -/
theorem forbidden_bad_hint_is_fatal (tl : Char → Char) (fl : Flags) (st : Loop)
    (resp : Response) (h403 : resp.StatusCode = 403)
    (hbad : resp.RetryAfter = none ∨
      ∃ v, resp.RetryAfter = some v ∧ (strconv.Atoi v).2 = true) :
    retryAfter (some resp) ≤ 0 ∧
    ((resp.RetryAfter = none ∨
        ∃ v, resp.RetryAfter = some v ∧ strconv.syntaxError v = true) →
      retryAfter (some resp) = 0) ∧
    (retryAfter (some resp) = 0 ∨ retryAfter (some resp) = -1000000000) ∧
    step tl fl st (.err (some resp)) = .fatal ∧
    (∀ rest, run tl fl st (.err (some resp) :: rest) = .fatal) ∧
    (∀ (other : Option Response) (after : Int) (st1 : Loop),
      step tl fl st (.err other) = .retry after st1 →
      ∃ r, other = some r ∧ r.StatusCode = 403 ∧ r.HeaderGet ≠ "" ∧
        0 < after ∧ after = retryAfter other ∧ st1 = st) ∧
    (∀ other : Response, other.StatusCode ≠ 403 →
      step tl fl st (.err (some other)) = .fatal) := by
  have hle := retryAfter_of_bad_hint resp h403 hbad
  have hstep := step_err_fatal tl fl st (some resp) hle
  refine ⟨hle, ?_, ?_, hstep, ?_, ?_, ?_⟩
  · rintro (hn | ⟨v, hv, hs⟩)
    · simp [retryAfter, Response.HeaderGet, hn]
    · exact retryAfter_of_syntaxError resp v hv hs
  · rcases hbad with hn | ⟨v, hv, he⟩
    · left; simp [retryAfter, Response.HeaderGet, hn]
    · have hg : resp.HeaderGet = v := by simp [Response.HeaderGet, hv]
      unfold retryAfter
      simp only [h403, if_true, hg]
      split
      · rcases Atoi_error_value v he with h0 | h1 | h2
        · left; rw [h0]; decide
        · right; rw [h1]; decide
        · left; rw [h2]; decide
      · left; rfl
  · intro rest
    simp [run, hstep]
  · intro other after st1 h
    exact step_retry_only_if tl fl st other after st1 h
  · intro other hne
    by_cases hp : 0 < retryAfter (some other)
    · obtain ⟨r, hr, hs, _⟩ := retryAfter_pos_only_403 (some other) hp
      simp only [Option.some.injEq] at hr
      exact absurd (hr ▸ hs) hne
    · exact step_err_fatal tl fl st (some other) (not_lt.mp hp)

theorem forbidden_bad_hint_is_fatal_witness :
    (forbidden (some "12x")).StatusCode = 403 ∧
    (strconv.Atoi "12x").2 = true ∧
    strconv.syntaxError "12x" = true ∧
    retryAfter (some (forbidden (some "12x"))) = 0 ∧
    step (fun c => c) (plainFlags ["foo"]) Loop.init (.err (some (forbidden (some "12x")))) = .fatal ∧
    step (fun c => c) (plainFlags ["foo"]) Loop.init
      (.err (some { StatusCode := 429, RetryAfter := some "60", NextPage := 0 })) = .fatal :=
  have h := forbidden_bad_hint_is_fatal (fun c => c) (plainFlags ["foo"]) Loop.init
    (forbidden (some "12x")) rfl (Or.inr ⟨"12x", rfl, by decide⟩)
  ⟨rfl, by decide, by decide, h.2.1 (Or.inr ⟨"12x", rfl, by decide⟩), h.2.2.2.1,
    h.2.2.2.2.2.2 { StatusCode := 429, RetryAfter := some "60", NextPage := 0 } (by decide)⟩

/-- C5, as stated, fails: an error with status 403 whose `Retry-After` is the
positive integer 9223372037 (accepted by `strconv.Atoi`) is not retried. The
product with `time.Second` leaves the `int64` range and wraps to a negative
wait, so the response is a fatal error and the run ends. -/
theorem large_hint_is_not_retried :
    (forbidden (some "9223372037")).StatusCode = 403 ∧
    strconv.Atoi "9223372037" = (9223372037, false) ∧
    retryAfter (some (forbidden (some "9223372037"))) = -9223372036709551616 ∧
    step (fun c => c) (plainFlags ["foo"]) Loop.init
      (.err (some (forbidden (some "9223372037")))) = .fatal ∧
    run (fun c => c) (plainFlags ["foo"]) Loop.init
      [.err (some (forbidden (some "9223372037"))), .ok [] (okResponse 0)] = .fatal := by
  decide

/-- C5, amended. In any state, an error answer with status 403 whose
`Retry-After` header is a positive integer `n` of seconds with `n * 10^9`
nanoseconds inside the `int64` range makes the loop sleep exactly `n` seconds
and jump back to the call: the state (page cursor, options and aggregation
map) is unchanged, so the next request equals the one just issued, and the
run continues from the same state. -/
theorem rate_limit_retries_same_page (tl : Char → Char) (fl : Flags) (st : Loop)
    (resp : Response) (v : String) (n : Int)
    (h403 : resp.StatusCode = 403) (hv : resp.RetryAfter = some v)
    (hn : strconv.Atoi v = (n, false)) (hpos : 0 < n) (hfit : n * 1000000000 < 2 ^ 63) :
    retryAfter (some resp) = n * time.Second ∧
    step tl fl st (.err (some resp)) = .retry (n * time.Second) st ∧
    ∀ rest,
      (∃ more, requests tl fl st (.err (some resp) :: rest)
          = request fl st :: request fl st :: more) ∧
      run tl fl st (.err (some resp) :: rest) = run tl fl st rest := by
  have hne : v ≠ "" := by
    intro he
    have h0 : strconv.Atoi "" = (0, true) := by decide
    rw [he, h0] at hn
    simp at hn
  have hr : retryAfter (some resp) = n * time.Second :=
    retryAfter_of_good_hint resp v n h403 hv hne hn (le_of_lt hpos) hfit
  have hp : 0 < retryAfter (some resp) := by
    rw [hr, time.Second]; omega
  refine ⟨hr, ?_, fun rest => retry_frame tl fl st (some resp) hp rest⟩
  rw [← hr]
  exact step_err_retry tl fl st (some resp) hp

theorem rate_limit_retries_same_page_witness :
    (forbidden (some "60")).StatusCode = 403 ∧
    strconv.Atoi "60" = (60, false) ∧
    (0 : Int) < 60 ∧ (60 : Int) * 1000000000 < 2 ^ 63 ∧
    step (fun c => c) (plainFlags ["foo"])
        { opts := { Loop.init.opts with Page := 3 }, repos := [] }
        (.err (some (forbidden (some "60"))))
      = .retry (60 * time.Second) { opts := { Loop.init.opts with Page := 3 }, repos := [] } :=
  ⟨rfl, by decide, by decide, by decide,
    (rate_limit_retries_same_page (fun c => c) (plainFlags ["foo"])
      { opts := { Loop.init.opts with Page := 3 }, repos := [] }
      (forbidden (some "60")) "60" 60 rfl rfl (by decide) (by decide) (by decide)).2.1⟩

theorem run_cons_next (tl : Char → Char) (fl : Flags) (st : Loop) (res : List CodeResult)
    (resp : Response) (rest : List Fetch) (h : 0 < resp.NextPage) :
    run tl fl st (.ok res resp :: rest) =
      run tl fl { opts := { st.opts with Page := resp.NextPage },
                  repos := addPage tl fl st.repos res } rest := by
  simp [run, step, h]

theorem run_cons_last (tl : Char → Char) (fl : Flags) (st : Loop) (res : List CodeResult)
    (resp : Response) (rest : List Fetch) (h : ¬ 0 < resp.NextPage) :
    run tl fl st (.ok res resp :: rest) = .rendered (finish fl (addPage tl fl st.repos res)) := by
  simp [run, step, h]

theorem run_fatal_of_error (tl : Char → Char) (fl : Flags) (pre : List Fetch) :
    ∀ (st : Loop) (bad : Fetch) (post : List Fetch),
      (∀ a ∈ pre, a.lastPage = false) → bad.fatalError = true →
      run tl fl st (pre ++ bad :: post) = .fatal := by
  induction pre with
  | nil =>
    intro st bad post _ hbad
    cases bad with
    | ok res resp => simp [Fetch.fatalError] at hbad
    | err resp =>
      simp only [Fetch.fatalError, Bool.not_eq_true', decide_eq_false_iff_not, not_lt] at hbad
      simp [run, step_err_fatal tl fl st resp hbad]
  | cons a pre ih =>
    intro st bad post hpre hbad
    have hrest : ∀ b ∈ pre, b.lastPage = false := fun b hb => hpre b (List.mem_cons_of_mem _ hb)
    cases a with
    | err resp =>
      by_cases hp : 0 < retryAfter resp
      · simp only [List.cons_append, run, step_err_retry tl fl st resp hp]
        exact ih st bad post hrest hbad
      · simp [run, step_err_fatal tl fl st resp (not_lt.mp hp)]
    | ok res resp =>
      have hn : 0 < resp.NextPage := by
        have := hpre (.ok res resp) (List.mem_cons_self _ _)
        simpa [Fetch.lastPage] using this
      rw [List.cons_append, run_cons_next tl fl st res resp _ hn]
      exact ih _ bad post hrest hbad

theorem run_rendered_only_if_complete (tl : Char → Char) (fl : Flags) (script : List Fetch) :
    ∀ (st : Loop) (v : Values), run tl fl st script = .rendered v →
      ∃ pre last post, script = pre ++ last :: post ∧
        (∀ a ∈ pre, a.fatalError = false ∧ a.lastPage = false) ∧
        last.lastPage = true ∧
        v = finish fl ((pagesOf (pre ++ [last])).foldl (addPage tl fl) st.repos) := by
  induction script with
  | nil => intro st v h; simp [run] at h
  | cons a rest ih =>
    intro st v h
    cases a with
    | err resp =>
      by_cases hp : 0 < retryAfter resp
      · simp only [run, step_err_retry tl fl st resp hp] at h
        obtain ⟨pre, last, post, hs, hpre, hlast, hv⟩ := ih st v h
        refine ⟨.err resp :: pre, last, post, by simp [hs], ?_, hlast, ?_⟩
        · intro b hb
          rcases List.mem_cons.mp hb with rfl | hb
          · simp [Fetch.fatalError, Fetch.lastPage, hp]
          · exact hpre b hb
        · simpa [pagesOf] using hv
      · simp [run, step_err_fatal tl fl st resp (not_lt.mp hp)] at h
    | ok res resp =>
      by_cases hn : 0 < resp.NextPage
      · rw [run_cons_next tl fl st res resp rest hn] at h
        obtain ⟨pre, last, post, hs, hpre, hlast, hv⟩ := ih _ v h
        refine ⟨.ok res resp :: pre, last, post, by simp [hs], ?_, hlast, ?_⟩
        · intro b hb
          rcases List.mem_cons.mp hb with rfl | hb
          · simp [Fetch.fatalError, Fetch.lastPage, hn]
          · exact hpre b hb
        · simpa [pagesOf] using hv
      · rw [run_cons_last tl fl st res resp rest hn] at h
        refine ⟨[], .ok res resp, rest, rfl, by simp, by simp [Fetch.lastPage, hn], ?_⟩
        simp only [Outcome.rendered.injEq] at h
        simp [pagesOf, ← h]

/-- C9. All or nothing. If an answer reached before the loop has ended is an
error that is not a rate-limit signal, the run ends with a fatal error and no
result set, however many pages were aggregated before. And a result set is
rendered only if the script is a sequence of rate-limit retries and pages
with a next-page indicator, none of them a fatal error, followed by a page
without one; the result then is the pruned, sorted fold of all those pages. -/
theorem all_or_nothing (tl : Char → Char) (fl : Flags) (st : Loop) :
    (∀ (pre : List Fetch) (bad : Fetch) (post : List Fetch),
      (∀ a ∈ pre, a.lastPage = false) → bad.fatalError = true →
      run tl fl st (pre ++ bad :: post) = .fatal) ∧
    (∀ (script : List Fetch) (v : Values), run tl fl st script = .rendered v →
      ∃ pre last post, script = pre ++ last :: post ∧
        (∀ a ∈ pre, a.fatalError = false ∧ a.lastPage = false) ∧
        last.lastPage = true ∧
        v = finish fl ((pagesOf (pre ++ [last])).foldl (addPage tl fl) st.repos)) :=
  ⟨fun pre bad post h1 h2 => run_fatal_of_error tl fl pre st bad post h1 h2,
   fun script v h => run_rendered_only_if_complete tl fl script st v h⟩

theorem all_or_nothing_witness :
    run (fun c => c) (plainFlags ["foo"]) Loop.init
      ([.ok [sampleItem "a/b" "x.go" ["has foo here"]] (okResponse 2),
        .err (some (forbidden (some "1")))]
        ++ .err (some { StatusCode := 500, RetryAfter := none, NextPage := 0 })
        :: [.ok [sampleItem "a/b" "y.go" ["also foo"]] (okResponse 0)]) = .fatal :=
  (all_or_nothing (fun c => c) (plainFlags ["foo"]) Loop.init).1
    [.ok [sampleItem "a/b" "x.go" ["has foo here"]] (okResponse 2),
      .err (some (forbidden (some "1")))]
    (.err (some { StatusCode := 500, RetryAfter := none, NextPage := 0 }))
    [.ok [sampleItem "a/b" "y.go" ["also foo"]] (okResponse 0)]
    (by decide) (by decide)

/-! ## The map -/

theorem keptFragments_foldl (tl : Char → Char) (fl : Flags) (ms : List (Option TextMatch)) :
    ∀ acc : List String,
      ms.foldl
        (fun acc m =>
          let frag := TextMatch.GetFragment m
          if accept tl fl.all fl.ignoreCase frag (q fl) then acc ++ [frag] else acc)
        acc
      = acc ++ (ms.map TextMatch.GetFragment).filter
          (fun frag => accept tl fl.all fl.ignoreCase frag (q fl)) := by
  induction ms with
  | nil => intro acc; simp
  | cons m ms ih =>
    intro acc
    simp only [List.foldl_cons, List.map_cons, ih]
    by_cases h : accept tl fl.all fl.ignoreCase (TextMatch.GetFragment m) (q fl) = true
    · simp [h, List.filter_cons]
    · simp [h, List.filter_cons]

theorem keptFragments_eq (tl : Char → Char) (fl : Flags) (r : CodeResult) :
    keptFragments tl fl r.TextMatches = acceptedFragments tl fl r := by
  simpa [keptFragments, acceptedFragments] using keptFragments_foldl tl fl r.TextMatches []

theorem mapGet_mapSet (m : Repos) (k : String) (v : matchRepo) (k1 : String) :
    mapGet (mapSet m k v) k1 = if k = k1 then some v else mapGet m k1 := by
  induction m with
  | nil => simp [mapSet, mapGet]
  | cons kv m ih =>
    by_cases h : kv.Key = k
    · by_cases h1 : k = k1
      · simp [mapSet, mapGet, h, h1]
      · simp [mapSet, mapGet, h, h1]
    · by_cases h1 : k = k1
      · subst h1; simp [mapSet, mapGet, h, ih]
      · simp [mapSet, mapGet, h, h1, ih]

theorem mapGet_eq_none_iff (m : Repos) (k : String) :
    mapGet m k = none ↔ k ∉ mapKeys m := by
  induction m with
  | nil => simp [mapGet, mapKeys]
  | cons kv m ih =>
    by_cases h : kv.Key = k
    · simp [mapGet, mapKeys, h]
    · have h1 : ¬ k = kv.Key := fun e => h e.symm
      simp only [mapKeys] at ih
      simp [mapGet, mapKeys, h, h1, ih]

theorem mapKeys_mapSet (m : Repos) (k : String) (v : matchRepo) :
    mapKeys (mapSet m k v) = if k ∈ mapKeys m then mapKeys m else mapKeys m ++ [k] := by
  induction m with
  | nil => simp [mapSet, mapKeys]
  | cons kv m ih =>
    simp only [mapKeys] at ih
    by_cases h : kv.Key = k
    · simp [mapSet, mapKeys, h]
    · have h1 : ¬ k = kv.Key := fun e => h e.symm
      by_cases hm : k ∈ List.map KeyValuePair.Key m
      · simp [mapSet, mapKeys, h, h1, hm, ih]
      · simp [mapSet, mapKeys, h, h1, hm, ih]

theorem nodup_mapSet (m : Repos) (k : String) (v : matchRepo) (h : (mapKeys m).Nodup) :
    (mapKeys (mapSet m k v)).Nodup := by
  rw [mapKeys_mapSet]
  by_cases hm : k ∈ mapKeys m
  · simpa [hm] using h
  · simp only [hm, if_false]
    exact List.Nodup.append h (List.nodup_singleton k) (by simpa using hm)

theorem mapGet_of_mem (m : Repos) (h : (mapKeys m).Nodup) (kv : KeyValuePair) (hkv : kv ∈ m) :
    mapGet m kv.Key = some kv.Value := by
  induction m with
  | nil => simp at hkv
  | cons e m ih =>
    simp only [mapKeys, List.map_cons, List.nodup_cons] at h
    rcases List.mem_cons.mp hkv with rfl | hm
    · simp [mapGet]
    · have hne : e.Key ≠ kv.Key := by
        intro he
        exact h.1 (by rw [he]; exact List.mem_map_of_mem _ hm)
      simp only [mapGet, hne, if_false]
      exact ih h.2 hm

theorem mem_of_mapGet (m : Repos) (k : String) (v : matchRepo) (h : mapGet m k = some v) :
    (⟨k, v⟩ : KeyValuePair) ∈ m := by
  induction m with
  | nil => simp [mapGet] at h
  | cons e m ih =>
    by_cases he : e.Key = k
    · simp only [mapGet, he, if_true, Option.some.injEq] at h
      cases e
      simp only at he h
      simp [he, h]
    · simp only [mapGet, he, if_false] at h
      exact List.mem_cons_of_mem _ (ih h)

/-! ## One item -/

/-- The files one item contributes to its repository: its record if it has an
accepted fragment, nothing otherwise. -/
theorem referenceFiles_cons (tl : Char → Char) (fl : Flags) (k : String) (r : CodeResult)
    (items : List CodeResult) :
    referenceFiles tl fl k (r :: items) =
      (if repoName r = k ∧ acceptedFragments tl fl r ≠ [] then [fileOf tl fl r] else [])
        ++ referenceFiles tl fl k items := by
  by_cases h1 : repoName r = k
  · by_cases h2 : acceptedFragments tl fl r = []
    · simp [referenceFiles, List.filter_cons, h1, h2]
    · simp [referenceFiles, List.filter_cons, h1, h2, fileOf, keptFragments_eq]
  · simp [referenceFiles, List.filter_cons, h1]

theorem mapGet_addResult (tl : Char → Char) (fl : Flags) (m : Repos) (r : CodeResult)
    (k : String) :
    mapGet (addResult tl fl m r) k =
      if repoName r = k then
        some { Name := ((mapGet m k).getD (newRepo r)).Name
               Href := ((mapGet m k).getD (newRepo r)).Href
               Files := ((mapGet m k).getD (newRepo r)).Files ++
                 (if acceptedFragments tl fl r ≠ [] then [fileOf tl fl r] else []) }
      else mapGet m k := by
  have hlen : ((fileOf tl fl r).Matches.length > 0) ↔ acceptedFragments tl fl r ≠ [] := by
    simp [fileOf, keptFragments_eq, List.length_pos]
  unfold addResult
  simp only [hlen]
  by_cases hk : repoName r = k
  · subst hk
    simp only [if_true]
    cases hg : mapGet m (repoName r) with
    | none =>
      have hg1 : mapGet m (Repository.GetFullName r.GetRepository) = none := hg
      by_cases ha : acceptedFragments tl fl r = []
      · simp [hg1, ha, mapGet_mapSet, repoName]
      · simp [hg1, ha, mapGet_mapSet, repoName]
    | some v =>
      have hg1 : mapGet m (Repository.GetFullName r.GetRepository) = some v := hg
      by_cases ha : acceptedFragments tl fl r = []
      · simp [hg1, ha, hg]
      · simp [hg1, ha, mapGet_mapSet, repoName]
  · have hk1 : ¬ Repository.GetFullName r.GetRepository = k := hk
    simp only [hk, if_false]
    cases hg : mapGet m (Repository.GetFullName r.GetRepository) with
    | none =>
      by_cases ha : acceptedFragments tl fl r = []
      · simp [ha, mapGet_mapSet, hk1]
      · simp [ha, mapGet_mapSet, hk1]
    | some v =>
      by_cases ha : acceptedFragments tl fl r = []
      · simp [ha]
      · simp [ha, mapGet_mapSet, hk1]

theorem nodup_addResult (tl : Char → Char) (fl : Flags) (m : Repos) (r : CodeResult)
    (h : (mapKeys m).Nodup) : (mapKeys (addResult tl fl m r)).Nodup := by
  unfold addResult
  cases hg : mapGet m (Repository.GetFullName r.GetRepository) with
  | none =>
    simp only [hg]
    split
    · exact nodup_mapSet _ _ _ (nodup_mapSet _ _ _ h)
    · exact nodup_mapSet _ _ _ h
  | some v =>
    simp only [hg]
    split
    · exact nodup_mapSet _ _ _ h
    · exact h

theorem nodup_addItems (tl : Char → Char) (fl : Flags) (items : List CodeResult) :
    ∀ m : Repos, (mapKeys m).Nodup → (mapKeys (items.foldl (addResult tl fl) m)).Nodup := by
  induction items with
  | nil => intro m h; exact h
  | cons r items ih => intro m h; exact ih _ (nodup_addResult tl fl m r h)

/-- The record found under `k` after a list of items has been folded into `m`. -/
theorem mapGet_addItems (tl : Char → Char) (fl : Flags) (k : String) (items : List CodeResult) :
    ∀ m : Repos,
      mapGet (items.foldl (addResult tl fl) m) k =
        match mapGet m k with
        | some v =>
          some { Name := v.Name, Href := v.Href,
                 Files := v.Files ++ referenceFiles tl fl k items }
        | none =>
          match items.find? (fun r => decide (repoName r = k)) with
          | some r =>
            some { Name := k, Href := Repository.GetHTMLURL r.Repository,
                   Files := referenceFiles tl fl k items }
          | none => none := by
  induction items with
  | nil =>
    intro m
    cases hg : mapGet m k with
    | none => simp [hg]
    | some v => cases v; simp [hg, referenceFiles]
  | cons r items ih =>
    intro m
    rw [List.foldl_cons, ih, mapGet_addResult, referenceFiles_cons]
    by_cases hk : repoName r = k
    · cases hg : mapGet m k with
      | none => simp [hk, List.find?_cons, newRepo, ← hk, repoName]
      | some v => simp [hk, List.append_assoc]
    · cases hg : mapGet m k with
      | none => simp [hk, List.find?_cons]
      | some v => simp [hk]

theorem aggregate_eq_foldl_flatten (tl : Char → Char) (fl : Flags)
    (pages : List (List CodeResult)) :
    aggregate tl fl pages = pages.flatten.foldl (addResult tl fl) [] := by
  rw [List.foldl_flatten]
  rfl

theorem nodup_aggregate (tl : Char → Char) (fl : Flags) (pages : List (List CodeResult)) :
    (mapKeys (aggregate tl fl pages)).Nodup := by
  rw [aggregate_eq_foldl_flatten]
  exact nodup_addItems tl fl _ [] (by simp [mapKeys])

theorem nodup_prune (m : Repos) (h : (mapKeys m).Nodup) : (mapKeys (prune m)).Nodup := by
  unfold mapKeys prune at *
  exact List.Nodup.sublist (List.Sublist.map _ (List.filter_sublist _)) h

theorem referenceFiles_ne_nil_iff (tl : Char → Char) (fl : Flags) (k : String)
    (items : List CodeResult) :
    referenceFiles tl fl k items ≠ [] ↔
      ∃ r ∈ items, repoName r = k ∧ acceptedFragments tl fl r ≠ [] := by
  induction items with
  | nil => simp [referenceFiles]
  | cons r items ih =>
    rw [referenceFiles_cons]
    by_cases h : repoName r = k ∧ acceptedFragments tl fl r ≠ []
    · rw [if_pos h]
      constructor
      · intro _; exact ⟨r, List.mem_cons_self _ _, h⟩
      · intro _; simp
    · simp only [h, if_false, List.nil_append, ih, List.mem_cons]
      constructor
      · rintro ⟨x, hx, hx2⟩; exact ⟨x, Or.inr hx, hx2⟩
      · rintro ⟨x, hx | hx, hx2⟩
        · subst hx; exact absurd hx2 h
        · exact ⟨x, hx, hx2⟩

/-- Every entry of the pruned map is the reference record of its key. -/
theorem finalRepos_entry (tl : Char → Char) (fl : Flags) (pages : List (List CodeResult))
    (kv : KeyValuePair) (hkv : kv ∈ finalRepos tl fl pages) :
    kv.Value.Name = kv.Key ∧
    kv.Value.Files = referenceFiles tl fl kv.Key pages.flatten ∧
    kv.Value.Files ≠ [] := by
  have hmem : kv ∈ aggregate tl fl pages := (List.mem_filter.mp hkv).1
  have hne : kv.Value.Files ≠ [] := by
    have := (List.mem_filter.mp hkv).2
    simpa using this
  have hget := mapGet_of_mem _ (nodup_aggregate tl fl pages) kv hmem
  rw [aggregate_eq_foldl_flatten, mapGet_addItems] at hget
  simp only [mapGet] at hget
  cases hf : List.find? (fun r => decide (repoName r = kv.Key)) pages.flatten with
  | none => simp [hf] at hget
  | some r =>
    simp only [hf, Option.some.injEq] at hget
    rw [← hget]
    refine ⟨rfl, rfl, ?_⟩
    rw [← hget] at hne
    exact hne

/-! ## The aggregation against its reference definition -/

theorem mem_mapKeys_finalRepos (tl : Char → Char) (fl : Flags) (pages : List (List CodeResult))
    (k : String) :
    k ∈ mapKeys (finalRepos tl fl pages) ↔
      ∃ r ∈ pages.flatten, repoName r = k ∧ acceptedFragments tl fl r ≠ [] := by
  constructor
  · intro hk
    obtain ⟨kv, hkv, rfl⟩ := List.mem_map.mp hk
    obtain ⟨_, hfiles, hne⟩ := finalRepos_entry tl fl pages kv hkv
    rw [hfiles] at hne
    exact (referenceFiles_ne_nil_iff tl fl kv.Key pages.flatten).mp hne
  · rintro ⟨r, hr, hrk, hacc⟩
    have hne : referenceFiles tl fl k pages.flatten ≠ [] :=
      (referenceFiles_ne_nil_iff tl fl k pages.flatten).mpr ⟨r, hr, hrk, hacc⟩
    have hget := mapGet_addItems tl fl k pages.flatten []
    simp only [mapGet] at hget
    cases hf : List.find? (fun r => decide (repoName r = k)) pages.flatten with
    | none =>
      have := List.find?_eq_none.mp hf r hr
      simp [hrk] at this
    | some r0 =>
      simp only [hf] at hget
      rw [← aggregate_eq_foldl_flatten] at hget
      have hmem := mem_of_mapGet _ _ _ hget
      have hfin : (⟨k, _⟩ : KeyValuePair) ∈ finalRepos tl fl pages :=
        List.mem_filter.mpr ⟨hmem, by simpa using hne⟩
      exact List.mem_map.mpr ⟨_, hfin, rfl⟩

/-- C1. The pruned aggregation map equals its reference definition: its keys
are pairwise distinct; an identifier is a key iff some item of that
repository on some page has an accepted fragment; and the record under a key
carries that identifier and, as its file list, exactly the items of that
repository with an accepted fragment, in page order then item order, each with
the item's path, its URL and exactly its accepted fragments in API order. -/
theorem aggregation_equals_reference (tl : Char → Char) (fl : Flags)
    (pages : List (List CodeResult)) :
    (mapKeys (finalRepos tl fl pages)).Nodup ∧
    (∀ k : String, k ∈ mapKeys (finalRepos tl fl pages) ↔
      ∃ page ∈ pages, ∃ r ∈ page, repoName r = k ∧
        (r.TextMatches.map TextMatch.GetFragment).filter
          (fun frag => accept tl fl.all fl.ignoreCase frag (q fl)) ≠ []) ∧
    (∀ (k : String) (v : matchRepo), mapGet (finalRepos tl fl pages) k = some v ↔
      (⟨k, v⟩ : KeyValuePair) ∈ finalRepos tl fl pages) ∧
    (∀ (k : String) (v : matchRepo), mapGet (finalRepos tl fl pages) k = some v →
      v.Name = k ∧ v.Files = referenceFiles tl fl k pages.flatten) := by
  have hnd := nodup_prune _ (nodup_aggregate tl fl pages)
  refine ⟨hnd, ?_, ?_, ?_⟩
  · intro k
    rw [mem_mapKeys_finalRepos]
    simp only [List.mem_flatten, acceptedFragments]
    constructor
    · rintro ⟨r, ⟨page, hp, hr⟩, h⟩; exact ⟨page, hp, r, hr, h⟩
    · rintro ⟨page, hp, r, hr, h⟩; exact ⟨r, ⟨page, hp, hr⟩, h⟩
  · intro k v
    exact ⟨mem_of_mapGet _ k v, fun h => mapGet_of_mem _ hnd ⟨k, v⟩ h⟩
  · intro k v h
    have := finalRepos_entry tl fl pages ⟨k, v⟩ (mem_of_mapGet _ k v h)
    exact ⟨this.1, this.2.1⟩

theorem aggregation_equals_reference_witness :
    mapGet (finalRepos (fun c => c) (plainFlags ["foo"])
        [[sampleItem "a/b" "x.go" ["has foo here", "unrelated"], sampleItem "c/d" "z.go" ["bar"]],
         [sampleItem "a/b" "y.go" ["also foo"]]]) "a/b"
      = some { Name := "a/b", Href := "https://github.com/a/b",
               Files := [⟨"x.go", "https://github.com/a/b/blob/main/x.go", ["has foo here"]⟩,
                         ⟨"y.go", "https://github.com/a/b/blob/main/y.go", ["also foo"]⟩] } ∧
    ("a/b" = "a/b" ∧
      [(⟨"x.go", "https://github.com/a/b/blob/main/x.go", ["has foo here"]⟩ : matchFile),
        ⟨"y.go", "https://github.com/a/b/blob/main/y.go", ["also foo"]⟩]
      = referenceFiles (fun c => c) (plainFlags ["foo"]) "a/b"
          [[sampleItem "a/b" "x.go" ["has foo here", "unrelated"], sampleItem "c/d" "z.go" ["bar"]],
           [sampleItem "a/b" "y.go" ["also foo"]]].flatten) :=
  ⟨by decide,
    (aggregation_equals_reference (fun c => c) (plainFlags ["foo"])
      [[sampleItem "a/b" "x.go" ["has foo here", "unrelated"], sampleItem "c/d" "z.go" ["bar"]],
       [sampleItem "a/b" "y.go" ["also foo"]]]).2.2.2 "a/b"
      { Name := "a/b", Href := "https://github.com/a/b",
        Files := [⟨"x.go", "https://github.com/a/b/blob/main/x.go", ["has foo here"]⟩,
                  ⟨"y.go", "https://github.com/a/b/blob/main/y.go", ["also foo"]⟩] }
      (by decide)⟩

/-- A run that renders started from the empty map renders the sorted view of
the pruned aggregation of the pages it fetched. -/
theorem run_rendered_finalRepos (tl : Char → Char) (fl : Flags) (script : List Fetch)
    (v : Values) (h : run tl fl Loop.init script = .rendered v) :
    ∃ pre last post, script = pre ++ last :: post ∧
      v = { Query := query fl,
            Repos := AsSortedMap (finalRepos tl fl (pagesOf (pre ++ [last]))) } := by
  obtain ⟨pre, last, post, hs, _, _, hv⟩ := run_rendered_only_if_complete tl fl script _ v h
  exact ⟨pre, last, post, hs, hv⟩

/-! ## The sorted view -/

theorem insertByKey_perm (kv : KeyValuePair) (l : List KeyValuePair) :
    (insertByKey kv l).Perm (kv :: l) := by
  induction l with
  | nil => exact List.Perm.refl _
  | cons h t ih =>
    unfold insertByKey
    split
    · exact List.Perm.refl _
    · exact (List.Perm.cons h ih).trans (List.Perm.swap kv h t)

theorem AsSortedMap_perm (m : Repos) : (AsSortedMap m).Perm m := by
  induction m with
  | nil => exact List.Perm.refl _
  | cons kv m ih =>
    exact (insertByKey_perm kv _).trans (List.Perm.cons kv ih)

theorem insertByKey_sorted (kv : KeyValuePair) (l : List KeyValuePair)
    (hl : l.Pairwise (fun a b => a.Key < b.Key)) (hkv : ∀ e ∈ l, e.Key ≠ kv.Key) :
    (insertByKey kv l).Pairwise (fun a b => a.Key < b.Key) := by
  induction l with
  | nil => simp [insertByKey]
  | cons h t ih =>
    have hht := List.pairwise_cons.mp hl
    unfold insertByKey
    split
    · rename_i hlt
      refine List.pairwise_cons.mpr ⟨?_, hl⟩
      intro e he
      rcases List.mem_cons.mp he with rfl | he
      · exact hlt
      · exact lt_trans hlt (hht.1 e he)
    · rename_i hnlt
      have hne : h.Key ≠ kv.Key := hkv h (List.mem_cons_self _ _)
      have hlt : h.Key < kv.Key := lt_of_le_of_ne (not_lt.mp hnlt) hne
      refine List.pairwise_cons.mpr ⟨?_, ih hht.2 (fun e he => hkv e (List.mem_cons_of_mem _ he))⟩
      intro e he
      rcases List.mem_cons.mp ((insertByKey_perm kv t).subset he) with rfl | he
      · exact hlt
      · exact hht.1 e he

theorem AsSortedMap_sorted (m : Repos) (h : (mapKeys m).Nodup) :
    (AsSortedMap m).Pairwise (fun a b => a.Key < b.Key) := by
  induction m with
  | nil => simp [AsSortedMap]
  | cons kv m ih =>
    simp only [mapKeys, List.map_cons, List.nodup_cons] at h
    refine insertByKey_sorted kv _ (ih h.2) ?_
    intro e he heq
    exact h.1 (heq ▸ List.mem_map_of_mem _ ((AsSortedMap_perm m).subset he))

theorem sorted_by_key_unique (l1 l2 : List KeyValuePair) (hp : l1.Perm l2)
    (h1 : l1.Pairwise (fun a b => a.Key < b.Key))
    (h2 : l2.Pairwise (fun a b => a.Key < b.Key)) : l1 = l2 := by
  haveI : IsAntisymm KeyValuePair (fun a b => a.Key < b.Key) :=
    ⟨fun a b hab hba => absurd hba (lt_asymm hab)⟩
  exact List.eq_of_perm_of_sorted hp h1 h2

/-- C6. The snapshot handed to the template lists the entries of the pruned
map in strictly ascending order of identifier, is a rearrangement of exactly
those entries (each key once), and does not depend on the order in which the
map is iterated: any rearrangement of the same entries gives the same snapshot. -/
theorem snapshot_sorted_exact_deterministic (tl : Char → Char) (fl : Flags)
    (pages : List (List CodeResult)) :
    (finish fl (aggregate tl fl pages)).Repos.Pairwise (fun a b => a.Key < b.Key) ∧
    (finish fl (aggregate tl fl pages)).Repos.Perm (finalRepos tl fl pages) ∧
    (mapKeys (finish fl (aggregate tl fl pages)).Repos).Nodup ∧
    (∀ m : Repos, m.Perm (finalRepos tl fl pages) →
      AsSortedMap m = (finish fl (aggregate tl fl pages)).Repos) := by
  have hnd : (mapKeys (finalRepos tl fl pages)).Nodup := nodup_prune _ (nodup_aggregate tl fl pages)
  have hs := AsSortedMap_sorted _ hnd
  have hp := AsSortedMap_perm (finalRepos tl fl pages)
  refine ⟨hs, hp, ?_, ?_⟩
  · exact ((hp.map KeyValuePair.Key).nodup_iff).mpr hnd
  · intro m hm
    have hndm : (mapKeys m).Nodup := ((hm.map KeyValuePair.Key).nodup_iff).mpr hnd
    exact sorted_by_key_unique _ _ ((AsSortedMap_perm m).trans (hm.trans hp.symm))
      (AsSortedMap_sorted m hndm) hs

theorem snapshot_sorted_exact_deterministic_witness :
    AsSortedMap
        [⟨"c/d", ⟨"c/d", "https://github.com/c/d",
            [⟨"z.go", "https://github.com/c/d/blob/main/z.go", ["foo"]⟩]⟩⟩,
         ⟨"a/b", ⟨"a/b", "https://github.com/a/b",
            [⟨"x.go", "https://github.com/a/b/blob/main/x.go", ["foo"]⟩]⟩⟩]
      = (finish (plainFlags ["foo"]) (aggregate (fun c => c) (plainFlags ["foo"])
          [[sampleItem "a/b" "x.go" ["foo"], sampleItem "c/d" "z.go" ["foo"]]])).Repos :=
  (snapshot_sorted_exact_deterministic (fun c => c) (plainFlags ["foo"])
      [[sampleItem "a/b" "x.go" ["foo"], sampleItem "c/d" "z.go" ["foo"]]]).2.2.2 _
    (List.Perm.swap _ _ [])

/-! ## Pruning -/

theorem referenceFiles_matches (tl : Char → Char) (fl : Flags) (k : String)
    (items : List CodeResult) (f : matchFile) (hf : f ∈ referenceFiles tl fl k items) :
    f.Matches ≠ [] := by
  obtain ⟨r, hr, rfl⟩ := List.mem_map.mp hf
  have := (List.mem_filter.mp hr).2
  simp only [Bool.and_eq_true, Bool.not_eq_true', List.isEmpty_eq_false] at this
  exact this.2

theorem snapshot_entry_pruned (tl : Char → Char) (fl : Flags) (pages : List (List CodeResult))
    (kv : KeyValuePair) (hkv : kv ∈ AsSortedMap (finalRepos tl fl pages)) :
    kv.Value.Files ≠ [] ∧ ∀ f ∈ kv.Value.Files, f.Matches ≠ [] := by
  have hmem : kv ∈ finalRepos tl fl pages := (AsSortedMap_perm _).subset hkv
  obtain ⟨_, hfiles, hne⟩ := finalRepos_entry tl fl pages kv hmem
  refine ⟨hne, ?_⟩
  intro f hf
  rw [hfiles] at hf
  exact referenceFiles_matches tl fl _ _ f hf

/-- The pruning invariant for whatever a run started from the empty map renders. -/
theorem run_rendered_pruned (tl : Char → Char) (fl : Flags) (script : List Fetch) (v : Values)
    (h : run tl fl Loop.init script = .rendered v) (kv : KeyValuePair) (hkv : kv ∈ v.Repos) :
    (repoValue kv).Files ≠ [] ∧ ∀ f ∈ (repoValue kv).Files, f.Matches ≠ [] := by
  obtain ⟨pre, last, post, _, hv⟩ := run_rendered_finalRepos tl fl script v h
  subst hv
  exact snapshot_entry_pruned tl fl (pagesOf (pre ++ [last])) kv hkv

/-- C4. Pruning invariant: every repository record of the final ordered
result set has a non-empty file list, and every file record in it has a
non-empty fragment list; the same holds in the pruned map it is taken from. -/
theorem pruning_invariant (tl : Char → Char) (fl : Flags) (pages : List (List CodeResult))
    (kv : KeyValuePair)
    (hkv : kv ∈ (finish fl (aggregate tl fl pages)).Repos ∨ kv ∈ finalRepos tl fl pages) :
    (repoValue kv).Files ≠ [] ∧ ∀ f ∈ (repoValue kv).Files, f.Matches ≠ [] := by
  have hmem : kv ∈ AsSortedMap (finalRepos tl fl pages) := by
    rcases hkv with h | h
    · exact h
    · exact (AsSortedMap_perm _).symm.subset h
  exact snapshot_entry_pruned tl fl pages kv hmem

theorem pruning_invariant_witness :
    (⟨"a/b", ⟨"a/b", "https://github.com/a/b",
        [⟨"y.go", "https://github.com/a/b/blob/main/y.go", ["also foo"]⟩]⟩⟩ : KeyValuePair) ∈
      (finish (plainFlags ["foo"]) (aggregate (fun c => c) (plainFlags ["foo"])
        [[sampleItem "a/b" "x.go" ["unrelated"], sampleItem "c/d" "z.go" []],
         [sampleItem "a/b" "y.go" ["also foo"]]])).Repos ∧
    (repoValue ⟨"a/b", ⟨"a/b", "https://github.com/a/b",
        [⟨"y.go", "https://github.com/a/b/blob/main/y.go", ["also foo"]⟩]⟩⟩).Files ≠ [] :=
  ⟨by decide,
    (pruning_invariant (fun c => c) (plainFlags ["foo"])
      [[sampleItem "a/b" "x.go" ["unrelated"], sampleItem "c/d" "z.go" []],
       [sampleItem "a/b" "y.go" ["also foo"]]]
      ⟨"a/b", ⟨"a/b", "https://github.com/a/b",
          [⟨"y.go", "https://github.com/a/b/blob/main/y.go", ["also foo"]⟩]⟩⟩
      (Or.inl (by decide))).1⟩

/-! ## The end-to-end scenario -/

/-- C8. Query `foo`, no flag set: page 1 delivers item (`a/b`, `x.go`,
fragments `has foo here` and `unrelated`) with next page 2; page 2 delivers
item (`a/b`, `y.go`, fragment `also foo`) with no next page. The run issues
two requests, for the initial page and then for page 2, and renders exactly
one repository `a/b` with the files `x.go` (fragment `has foo here`) and
`y.go` (fragment `also foo`), in that order. -/
theorem two_page_scenario (tl : Char → Char) :
    run tl (plainFlags ["foo"]) Loop.init
        [.ok [sampleItem "a/b" "x.go" ["has foo here", "unrelated"]] (okResponse 2),
         .ok [sampleItem "a/b" "y.go" ["also foo"]] (okResponse 0)]
      = .rendered
          { Query := "foo"
            Repos :=
              [⟨"a/b",
                { Name := "a/b", Href := "https://github.com/a/b"
                  Files :=
                    [⟨"x.go", "https://github.com/a/b/blob/main/x.go", ["has foo here"]⟩,
                     ⟨"y.go", "https://github.com/a/b/blob/main/y.go", ["also foo"]⟩] }⟩] } ∧
    (requests tl (plainFlags ["foo"]) Loop.init
        [.ok [sampleItem "a/b" "x.go" ["has foo here", "unrelated"]] (okResponse 2),
         .ok [sampleItem "a/b" "y.go" ["also foo"]] (okResponse 0)]).map
        (fun rq => (rq.1, rq.2.Page))
      = [("foo", 0), ("foo", 2)] :=
  ⟨rfl, rfl⟩

/-! ## The highlight anchor -/

theorem mapGet_withAnchor (a : String) (m : Repos) (k : String) :
    mapGet (withAnchor a m) k = (mapGet m k).map (anchorRepo a) := by
  induction m with
  | nil => simp [withAnchor, mapGet]
  | cons kv m ih =>
    simp only [withAnchor] at ih
    by_cases h : kv.Key = k
    · simp [withAnchor, mapGet, h]
    · simp [withAnchor, mapGet, h, ih]

theorem mapSet_withAnchor (a : String) (m : Repos) (k : String) (v : matchRepo) :
    mapSet (withAnchor a m) k (anchorRepo a v) = withAnchor a (mapSet m k v) := by
  induction m with
  | nil => simp [withAnchor, mapSet]
  | cons kv m ih =>
    simp only [withAnchor] at ih
    by_cases h : kv.Key = k
    · simp [withAnchor, mapSet, h]
    · simp [withAnchor, mapSet, h, ih]

theorem prune_withAnchor (a : String) (m : Repos) :
    prune (withAnchor a m) = withAnchor a (prune m) := by
  simp [prune, withAnchor, List.filter_map, Function.comp_def, anchorRepo]

theorem fileOf_highlight (tl : Char → Char) (fl : Flags) (r : CodeResult) :
    fileOf tl { fl with highlight := true } r =
      anchorFile ("#:~:text=" ++ url.QueryEscape (q fl))
        (fileOf tl { fl with highlight := false } r) := by
  have hq : q { fl with highlight := true } = q fl := rfl
  have hk : keptFragments tl { fl with highlight := true } r.TextMatches
      = keptFragments tl { fl with highlight := false } r.TextMatches := rfl
  simp [fileOf, anchorFile, textMatch, hq, hk]

theorem addResult_highlight (tl : Char → Char) (fl : Flags) (m : Repos) (r : CodeResult) :
    addResult tl { fl with highlight := true }
        (withAnchor ("#:~:text=" ++ url.QueryEscape (q fl)) m) r =
      withAnchor ("#:~:text=" ++ url.QueryEscape (q fl))
        (addResult tl { fl with highlight := false } m r) := by
  have hlen : (fileOf tl { fl with highlight := true } r).Matches.length
      = (fileOf tl { fl with highlight := false } r).Matches.length := rfl
  have hnew : anchorRepo ("#:~:text=" ++ url.QueryEscape (q fl)) (newRepo r) = newRepo r := rfl
  unfold addResult
  simp only [hlen, mapGet_withAnchor]
  cases hg : mapGet m (Repository.GetFullName r.GetRepository) with
  | none =>
    simp only [Option.map_none']
    by_cases hc : (fileOf tl { fl with highlight := false } r).Matches.length > 0
    · rw [if_pos hc, if_pos hc, ← mapSet_withAnchor, ← mapSet_withAnchor, hnew,
        fileOf_highlight]
      simp [anchorRepo, newRepo]
    · rw [if_neg hc, if_neg hc, ← mapSet_withAnchor, hnew]
  | some v =>
    simp only [Option.map_some']
    by_cases hc : (fileOf tl { fl with highlight := false } r).Matches.length > 0
    · rw [if_pos hc, if_pos hc, ← mapSet_withAnchor, fileOf_highlight]
      simp [anchorRepo]
    · rw [if_neg hc, if_neg hc]

theorem addItems_highlight (tl : Char → Char) (fl : Flags) (items : List CodeResult) :
    ∀ m : Repos,
      items.foldl (addResult tl { fl with highlight := true })
          (withAnchor ("#:~:text=" ++ url.QueryEscape (q fl)) m) =
        withAnchor ("#:~:text=" ++ url.QueryEscape (q fl))
          (items.foldl (addResult tl { fl with highlight := false }) m) := by
  induction items with
  | nil => intro m; rfl
  | cons r items ih =>
    intro m
    rw [List.foldl_cons, List.foldl_cons, addResult_highlight, ih]

theorem finalRepos_highlight (tl : Char → Char) (fl : Flags) (pages : List (List CodeResult)) :
    finalRepos tl { fl with highlight := true } pages =
      withAnchor ("#:~:text=" ++ url.QueryEscape (q fl))
        (finalRepos tl { fl with highlight := false } pages) := by
  unfold finalRepos
  rw [← prune_withAnchor, aggregate_eq_foldl_flatten, aggregate_eq_foldl_flatten,
    ← addItems_highlight]
  rfl

/-- C10. The highlight anchor is purely additive. The pruned aggregation with
the toggle on is the one with the toggle off with the anchor appended to every
file URL; the repositories, their names and URLs, the files with their order,
paths and accepted fragments are the same, and with the toggle off the file
URLs carry no suffix. -/
theorem highlight_only_appends_anchor (tl : Char → Char) (fl : Flags)
    (pages : List (List CodeResult)) :
    finalRepos tl { fl with highlight := true } pages =
      withAnchor ("#:~:text=" ++ url.QueryEscape (q fl))
        (finalRepos tl { fl with highlight := false } pages) ∧
    (finalRepos tl { fl with highlight := true } pages).map
        (fun kv => (kv.Key, kv.Value.Name, kv.Value.Href,
          kv.Value.Files.map (fun f => (f.Path, f.Matches)))) =
      (finalRepos tl { fl with highlight := false } pages).map
        (fun kv => (kv.Key, kv.Value.Name, kv.Value.Href,
          kv.Value.Files.map (fun f => (f.Path, f.Matches)))) ∧
    (finalRepos tl { fl with highlight := true } pages).map
        (fun kv => kv.Value.Files.map (fun f => f.Href)) =
      (finalRepos tl { fl with highlight := false } pages).map
        (fun kv => kv.Value.Files.map
          (fun f => f.Href ++ ("#:~:text=" ++ url.QueryEscape (q fl)))) ∧
    textMatch { fl with highlight := false } = "" := by
  have h := finalRepos_highlight tl fl pages
  refine ⟨h, ?_, ?_, rfl⟩
  · rw [h]
    simp [withAnchor, anchorRepo, anchorFile, List.map_map, Function.comp_def]
  · rw [h]
    simp [withAnchor, anchorRepo, anchorFile, List.map_map, Function.comp_def]

end GitSearch
